import Mathlib

/-!
Verification of the variational-learner simulation in
`src/learners/variational.py`.

The Python module is embedded shallowly:

* weights and learning rates (Python floats) are modelled as exact
  rationals `ℚ`;
* grammars and sentence ids (Python ints) as `ℕ`;
* the process-wide random source is modelled by explicit oracles: each
  `random.random()` draw consumed by the hypothesis sampler is a rational
  supplied by a function argument, and the harness's random sentence choice
  is a stream `ℕ → ℕ`;
* the unbounded retry loop of `choose_grammar` is given explicit fuel and
  returns `Option`, `none` standing for the run on which the Python loop
  never produces a grammar integer;
* `get_param_value` and `toggled` are imported by the module from
  `colag.colag`, which is not among the sources; they are modelled from the
  spec as single-bit read and single-bit toggle.

Every other definition is translated directly from the source file.
-/

namespace Variational

/-- Modelled from the spec: `get_param_value pos g` reads the bit at
position `pos` of the grammar integer `g` — the Grammar Codec's implicit
decode ("extract the bit at position P−1−i").  The function itself lives in
`colag.colag`, outside this repository's sources. -/
def get_param_value (pos g : ℕ) : ℕ := g / 2 ^ pos % 2

/-- Modelled from the spec: `toggled pos g` flips the bit at position `pos`
of the grammar integer `g`.  The function lives in `colag.colag`; the call
site's comment reads "toggle the bit in the grammar int". -/
def toggled (pos g : ℕ) : ℕ := g ^^^ 2 ^ pos

/-- Loop of `param_list_to_grammar`: `total` is `len(params)`, `bit` the
running index, the last argument the accumulated grammar integer. -/
def plgAux (total : ℕ) : ℕ → List ℕ → ℕ → ℕ
  | _, [], g => g
  | bit, v :: vs, g => plgAux total (bit + 1) vs (g + v * 2 ^ (total - bit - 1))

/-- `param_list_to_grammar`: treat a list of 0s and 1s as a bitstring and
return its integer value (element 0 most significant). -/
def param_list_to_grammar (params : List ℕ) : ℕ :=
  plgAux params.length 0 params 0

/-- Closed form of the `param_list_to_grammar` accumulator, used in proofs:
the value contributed by the remaining entries starting at index `bit`. -/
def plgVal (total : ℕ) : ℕ → List ℕ → ℕ
  | _, [] => 0
  | bit, v :: vs => v * 2 ^ (total - bit - 1) + plgVal total (bit + 1) vs

/-- Python 3 `round` on a rational: nearest integer, ties to the even
neighbour. -/
def pyRound (q : ℚ) : ℤ :=
  if q - ⌊q⌋ < 1/2 then ⌊q⌋
  else if (1:ℚ)/2 < q - ⌊q⌋ then ⌊q⌋ + 1
  else if ⌊q⌋ % 2 = 0 then ⌊q⌋ else ⌊q⌋ + 1

/-- `VariationalLearner.best_guess`: round every weight and encode the
result.  Weights stay in `[0,1]`, where `pyRound` yields `0` or `1`, so
`Int.toNat` is the identity on the rounded values. -/
def best_guess (ws : List ℚ) : ℕ :=
  param_list_to_grammar (ws.map fun w => (pyRound w).toNat)

/-- `VariationalLearner.converged`, translated literally: the loop returns
`False` on the first weight `w` satisfying
`(not (1 - w < threshold)) or (w < threshold)` and `True` otherwise. -/
def converged (ws : List ℚ) (threshold : ℚ) : Bool :=
  ws.all fun w => !(!(decide (1 - w < threshold)) || decide (w < threshold))

/-- Modelled from the spec: the intended convergence semantics of §4.6 —
every weight lies within `threshold` of one of its boundary values 0, 1. -/
def convergedSpec (ws : List ℚ) (threshold : ℚ) : Prop :=
  ∀ w ∈ ws, w < threshold ∨ 1 - w < threshold

/-- The Domain Collaborator interface used by the learner.  `legal` takes an
`Option ℕ` because `choose_grammar` first tests the Python `None`
placeholder against `legal_grammar`.  `parses g s` models
`s ∈ domain.language[g]`; `sentence_irr s` the per-sentence annotation
string (`domain.sentence_irr[s]`). -/
structure DomainM where
  num_params : ℕ
  legal : Option ℕ → Bool
  parses : ℕ → ℕ → Bool
  sentence_irr : ℕ → List Char

/-- Apply `f` to every entry, passing the entry's index, starting the index
count at `k`.  Each iteration of the Python update loops reads and writes
only `weights[index]`, so the sequential loop equals this index-wise map. -/
def updFrom (f : ℕ → ℚ → ℚ) : ℕ → List ℚ → List ℚ
  | _, [] => []
  | k, w :: ws => f k w :: updFrom f (k + 1) ws

/-- `for index in range(13)` over the weight list: entries at indices `< 13`
are updated, later entries are untouched.  (For a list shorter than 13 the
Python code raises `IndexError`; every learner in the module owns 13
weights, one per Colag parameter.) -/
def updateFirst13 (f : ℕ → ℚ → ℚ) (ws : List ℚ) : List ℚ :=
  updFrom (fun i w => if i < 13 then f i w else w) 0 ws

/-- Shared body of every reward loop — the bounded proportional update rule:
hypothesis bit 0 moves the weight down by `rate * weight`, bit 1 up by
`rate * (1 - weight)`, any other value (unreachable for single bits) leaves
it unchanged, mirroring the `if val == 0 / elif val == 1` chain. -/
def boundedUpdate (rate : ℚ) (bit : ℕ) (w : ℚ) : ℚ :=
  if bit = 0 then w - rate * w
  else if bit = 1 then w + rate * (1 - w)
  else w

/-- `RewardOnlyLearner.reward`: apply the rule at every index of
`range(13)`, reading the hypothesis bit at position `12 - index`. -/
def rewardRO (rate : ℚ) (g : ℕ) (ws : List ℚ) : List ℚ :=
  updateFirst13 (fun i w => boundedUpdate rate (get_param_value (12 - i) g) w) ws

/-- `RewardOnlyRelevantLearner.reward`: skip indices whose annotation
character is `'~'`.  `trigger_str[index]` is modelled by `List.getD` with an
unannotated placeholder default (Python raises on short strings). -/
def rewardRel (dom : DomainM) (rate : ℚ) (g sentence : ℕ) (ws : List ℚ) : List ℚ :=
  updateFirst13
    (fun i w =>
      if (dom.sentence_irr sentence).getD i ' ' = '~' then w
      else boundedUpdate rate (get_param_value (12 - i) g) w) ws

/-- `SkepticalRewardOnlyLearner.reward`: skip `'~'` indices, and use half
the configured rate where the annotation character is `'*'`. -/
def rewardSkep (dom : DomainM) (rate : ℚ) (g sentence : ℕ) (ws : List ℚ) : List ℚ :=
  updateFirst13
    (fun i w =>
      if (dom.sentence_irr sentence).getD i ' ' = '~' then w
      else
        boundedUpdate
          (if (dom.sentence_irr sentence).getD i ' ' = '*' then rate / 2 else rate)
          (get_param_value (12 - i) g) w) ws

/-- The four update strategies of the module. -/
inductive StrategyKind where
  | rewardOnly
  | rewardOnlyRelevant
  | skeptical
  | punishOnly
  deriving DecidableEq

/-- Dispatch of the `reward` method.  `PunishOnlyLearner.reward` is `pass`. -/
def strategyReward : StrategyKind → DomainM → ℚ → ℕ → ℕ → List ℚ → List ℚ
  | .rewardOnly, _, rate, g, _, ws => rewardRO rate g ws
  | .rewardOnlyRelevant, dom, rate, g, s, ws => rewardRel dom rate g s ws
  | .skeptical, dom, rate, g, s, ws => rewardSkep dom rate g s ws
  | .punishOnly, _, _, _, _, ws => ws

/-- Dispatch of the `punish` method: `pass` for the three reward-only
learners; `PunishOnlyLearner.punish` calls the unconditional reward on
`hypothesis_grammar ^ ones` with `ones = 2 ** num_params - 1`. -/
def strategyPunish : StrategyKind → DomainM → ℚ → ℕ → ℕ → List ℚ → List ℚ
  | .punishOnly, dom, rate, g, _, ws => rewardRO rate (g ^^^ (2 ^ dom.num_params - 1)) ws
  | _, _, _, _, _, ws => ws

/-- One full sampling pass of `choose_grammar`'s body: `u i` is the
`random.random()` draw consumed for weight `i`, the coin flip succeeds when
`u i < w`, and a successful flip toggles the hard-coded bit position
`12 - index` of the candidate grammar. -/
def samplePassAux (u : ℕ → ℚ) : ℕ → ℕ → List ℚ → ℕ
  | _, g, [] => g
  | i, g, w :: ws => samplePassAux u (i + 1) (if u i < w then toggled (12 - i) g else g) ws

/-- One pass of the sampler starting from candidate grammar 0. -/
def samplePass (u : ℕ → ℚ) (ws : List ℚ) : ℕ := samplePassAux u 0 0 ws

/-- Retry loop of `VariationalLearner.choose_grammar`: resample a full pass
until `legal` accepts.  `u k` supplies the draws of the `k`-th pass; `fuel`
bounds the unbounded Python loop.  `none` models the two runs that never
yield a grammar integer: fuel exhaustion (the Python loop spins forever)
and a domain that accepts the initial `None` placeholder (the Python
function would return `None`, not a grammar). -/
def chooseGrammarAux (legal : Option ℕ → Bool) (u : ℕ → ℕ → ℚ) (ws : List ℚ) :
    ℕ → ℕ → Option ℕ → Option ℕ
  | 0, _, g => if legal g then g else none
  | fuel + 1, k, g =>
    if legal g then g
    else chooseGrammarAux legal u ws fuel (k + 1) (some (samplePass (u k) ws))

/-- `choose_grammar` entry point: the candidate starts as `None`. -/
def choose_grammar (legal : Option ℕ → Bool) (u : ℕ → ℕ → ℚ) (ws : List ℚ)
    (fuel : ℕ) : Option ℕ :=
  chooseGrammarAux legal u ws fuel 0 none

/-- `VariationalLearner.consume`: sample a hypothesis grammar, test the
sentence, then reward on success and punish on failure. -/
def consumeStep (kind : StrategyKind) (dom : DomainM) (rate : ℚ) (u : ℕ → ℕ → ℚ)
    (fuel sentence : ℕ) (ws : List ℚ) : Option (List ℚ) :=
  match choose_grammar dom.legal u ws fuel with
  | none => none
  | some g =>
    if dom.parses g sentence then some (strategyReward kind dom rate g sentence ws)
    else some (strategyPunish kind dom rate g sentence ws)

/-- Loop of `learn_language`.  The learner is abstract: `consume t s` is its
`consume` call at iteration `t` (`none` when its sampler yields no
grammar), `conv` its convergence test at the fixed threshold.  `fuel` is
`iterations + 1` at the top-level call, which the loop never exhausts,
since `counter` grows by one per recursive call and the loop stops once
`cap ≤ counter`.  Besides the Python return value — the first component,
`counter` — the result carries the number of sentences consumed and the
final learner state, recorded for specification purposes. -/
def learnAux {σ : Type} (consume : ℕ → σ → Option σ) (conv : σ → Bool) (cap : ℕ) :
    ℕ → ℕ → ℕ → σ → Option (ℕ × ℕ × σ)
  | 0, _, _, _ => none
  | fuel + 1, counter, consumed, s =>
    if conv s then some (counter, consumed, s)
    else
      match consume counter s with
      | none => none
      | some s₁ =>
        if cap ≤ counter then some (counter, consumed + 1, s₁)
        else learnAux consume conv cap fuel (counter + 1) (consumed + 1) s₁

/-- `learn_language` (the spec's `run_one`): the convergence threshold is
the hard-coded `threshold = 0.02 = 1/50`; `convergedM` is the learner's
two-argument `converged` method, always consulted at that threshold. -/
def learn_language {σ : Type} (consume : ℕ → σ → Option σ) (convergedM : σ → ℚ → Bool)
    (iterations : ℕ) (s : σ) : Option (ℕ × ℕ × σ) :=
  learnAux consume (fun st => convergedM st (1/50)) iterations (iterations + 1) 0 0 s

/-- One Trial Result row of `run_vl_on_languages`, without the wall-clock
columns (timing is I/O).  `sentencesConsumed` holds exactly what the Python
code stores there: the return value of `learn_language`. -/
structure TrialResult where
  grammarId : ℕ
  trialNum : ℕ
  sentencesConsumed : ℕ
  grammarField : ℕ
  finalWeights : List ℚ
  deriving DecidableEq

/-- One trial of the `run_vl_on_languages` loop body: build a fresh learner
(weights all 0.5, the default learning rate `0.0005 = 1/2000`), run
`learn_language`, then emit the row
`[grammar, trial_num, sentences_consumed, learner.choose_grammar()]`
followed by the learner's weights.  `uSteps t` supplies the sampling draws
of consume step `t`, `uFinal` those of the final `choose_grammar()` call,
`sentences t` the harness's random sentence choice at step `t`. -/
def runTrial (kind : StrategyKind) (dom : DomainM) (grammarId trialNum numSentences : ℕ)
    (sentences : ℕ → ℕ) (uSteps : ℕ → ℕ → ℕ → ℚ) (uFinal : ℕ → ℕ → ℚ)
    (fuel : ℕ) : Option TrialResult :=
  match learn_language
      (fun t ws => consumeStep kind dom (1/2000) (uSteps t) fuel (sentences t) ws)
      converged numSentences (List.replicate dom.num_params (1/2)) with
  | none => none
  | some (counter, _, wsF) =>
    match choose_grammar dom.legal uFinal wsF fuel with
    | none => none
    | some g => some ⟨grammarId, trialNum, counter, g, wsF⟩

/-- Concrete 13-parameter domain for closed instances: every grammar
integer is legal, the `None` placeholder is not, and no sentence parses. -/
def domNoParse : DomainM where
  num_params := 13
  legal := fun g => g.isSome
  parses := fun _ _ => false
  sentence_irr := fun _ => []

/-- Concrete 13-parameter domain whose every sentence is annotated
irrelevant on parameter 0, ambiguous on parameter 1 and unannotated
elsewhere; every sentence parses in every grammar. -/
def domAnnot : DomainM where
  num_params := 13
  legal := fun g => g.isSome
  parses := fun _ _ => true
  sentence_irr := fun _ => '~' :: '*' :: List.replicate 11 '-'

theorem updFrom_getD (f : ℕ → ℚ → ℚ) :
    ∀ (ws : List ℚ) (k i : ℕ) (d : ℚ), i < ws.length →
      (updFrom f k ws).getD i d = f (k + i) (ws.getD i d)
  | [], _, _, _, h => absurd h (by simp)
  | w :: ws, k, 0, d, _ => rfl
  | w :: ws, k, i + 1, d, h => by
    show (updFrom f (k + 1) ws).getD i d = f (k + (i + 1)) (ws.getD i d)
    rw [updFrom_getD f ws (k + 1) i d (by simpa using h)]
    congr 1
    omega

theorem updateFirst13_getD (f : ℕ → ℚ → ℚ) (ws : List ℚ) (i : ℕ) (d : ℚ)
    (h : i < ws.length) :
    (updateFirst13 f ws).getD i d
      = if i < 13 then f i (ws.getD i d) else ws.getD i d := by
  unfold updateFirst13
  rw [updFrom_getD _ _ 0 i d h, Nat.zero_add]

theorem updFrom_forall (P : ℚ → Prop) (f : ℕ → ℚ → ℚ)
    (hf : ∀ i w, P w → P (f i w)) :
    ∀ (k : ℕ) (ws : List ℚ), (∀ w ∈ ws, P w) → ∀ w ∈ updFrom f k ws, P w := by
  intro k ws
  induction ws generalizing k with
  | nil =>
    intro _ w hw
    simp only [updFrom] at hw
    exact absurd hw (by simp)
  | cons x ws ih =>
    intro hmem w hw
    simp only [updFrom] at hw
    rcases List.mem_cons.mp hw with hw | hw
    · exact hw ▸ hf k x (hmem x (List.mem_cons_self x ws))
    · exact ih (k + 1) (fun y hy => hmem y (List.mem_cons_of_mem x hy)) w hw

theorem boundedUpdate_bounds (rate : ℚ) (bit : ℕ) (w : ℚ)
    (h0 : 0 ≤ rate) (h1 : rate ≤ 1) (hw0 : 0 ≤ w) (hw1 : w ≤ 1) :
    0 ≤ boundedUpdate rate bit w ∧ boundedUpdate rate bit w ≤ 1 := by
  unfold boundedUpdate
  split_ifs with hb0 hb1
  · constructor <;> nlinarith
  · constructor <;> nlinarith
  · exact ⟨hw0, hw1⟩

theorem updateFirst13_preserve (f : ℕ → ℚ → ℚ)
    (hf : ∀ i w, 0 ≤ w ∧ w ≤ 1 → 0 ≤ f i w ∧ f i w ≤ 1) (ws : List ℚ)
    (hws : ∀ w ∈ ws, 0 ≤ w ∧ w ≤ 1) :
    ∀ w ∈ updateFirst13 f ws, 0 ≤ w ∧ w ≤ 1 := by
  refine updFrom_forall _ _ ?_ 0 ws hws
  intro i w hw
  dsimp only
  split_ifs
  · exact hf i w hw
  · exact hw

/-- C2: with the learning rate in `[0,1]` and every weight in `[0,1]`, one
call to any strategy's `reward` or `punish` leaves every weight in `[0,1]`:
each touched weight moves by the bounded proportional rule, which is a
convex combination with its target boundary. -/
theorem strategy_updates_preserve_unit_interval
    (kind : StrategyKind) (dom : DomainM) (rate : ℚ) (g s : ℕ) (ws : List ℚ)
    (hr0 : 0 ≤ rate) (hr1 : rate ≤ 1) (hws : ∀ w ∈ ws, 0 ≤ w ∧ w ≤ 1) :
    (∀ w ∈ strategyReward kind dom rate g s ws, 0 ≤ w ∧ w ≤ 1) ∧
    (∀ w ∈ strategyPunish kind dom rate g s ws, 0 ≤ w ∧ w ≤ 1) := by
  have hro : ∀ (g₁ : ℕ), ∀ w ∈ rewardRO rate g₁ ws, 0 ≤ w ∧ w ≤ 1 := by
    intro g₁
    refine updateFirst13_preserve _ ?_ ws hws
    intro i w hw
    exact boundedUpdate_bounds rate _ w hr0 hr1 hw.1 hw.2
  cases kind with
  | rewardOnly => exact ⟨hro g, hws⟩
  | rewardOnlyRelevant =>
    refine ⟨?_, hws⟩
    refine updateFirst13_preserve _ ?_ ws hws
    intro i w hw
    dsimp only
    split_ifs
    · exact hw
    · exact boundedUpdate_bounds rate _ w hr0 hr1 hw.1 hw.2
  | skeptical =>
    refine ⟨?_, hws⟩
    refine updateFirst13_preserve _ ?_ ws hws
    intro i w hw
    dsimp only
    split_ifs
    · exact hw
    · exact boundedUpdate_bounds _ _ w (by linarith) (by linarith) hw.1 hw.2
    · exact boundedUpdate_bounds rate _ w hr0 hr1 hw.1 hw.2
  | punishOnly => exact ⟨hws, hro _⟩

/-- Closed instance discharging the hypotheses of
`strategy_updates_preserve_unit_interval` at a concrete input. -/
theorem strategy_updates_preserve_unit_interval_witness :
    (∀ w ∈ strategyReward .rewardOnly domNoParse (1/2) 5 0 [(1:ℚ)/2], 0 ≤ w ∧ w ≤ 1) ∧
    (∀ w ∈ strategyPunish .rewardOnly domNoParse (1/2) 5 0 [(1:ℚ)/2], 0 ≤ w ∧ w ≤ 1) :=
  strategy_updates_preserve_unit_interval .rewardOnly domNoParse (1/2) 5 0 [(1:ℚ)/2]
    (by norm_num) (by norm_num) (by intro w hw; simp at hw; subst hw; norm_num)

/-- C7: one `RewardOnlyRelevantLearner.reward` call leaves a weight
unchanged exactly when the sentence's annotation marks its parameter
irrelevant (`'~'`), and applies the bounded proportional update to every
other parameter of the same call. -/
theorem relevant_reward_frame (dom : DomainM) (rate : ℚ) (g s : ℕ) (ws : List ℚ)
    (i : ℕ) (h13 : i < 13) (hlen : i < ws.length) :
    (((dom.sentence_irr s).getD i ' ' = '~') →
        (rewardRel dom rate g s ws).getD i 0 = ws.getD i 0) ∧
    (((dom.sentence_irr s).getD i ' ' ≠ '~') →
        (rewardRel dom rate g s ws).getD i 0
          = boundedUpdate rate (get_param_value (12 - i) g) (ws.getD i 0)) := by
  unfold rewardRel
  rw [updateFirst13_getD _ _ _ _ hlen, if_pos h13]
  constructor
  · intro hmark; rw [if_pos hmark]
  · intro hmark; rw [if_neg hmark]

/-- Closed instance of `relevant_reward_frame`: the weight of the
irrelevant-marked parameter 0 is untouched. -/
theorem relevant_reward_frame_witness :
    (rewardRel domAnnot (1/2) 5 0 [(1:ℚ)/2]).getD 0 0 = ([(1:ℚ)/2]).getD 0 0 :=
  (relevant_reward_frame domAnnot (1/2) 5 0 [(1:ℚ)/2] 0 (by norm_num) (by simp)).1
    (by decide)

/-- C8: for a parameter annotated ambiguous (`'*'`), the magnitude of the
skeptical learner's weight change is exactly half that of the
relevance-filtered learner on identical inputs; on any other annotation the
two learners change the weight identically. -/
theorem skeptical_half_delta (dom : DomainM) (rate : ℚ) (g s : ℕ) (ws : List ℚ)
    (i : ℕ) (h13 : i < 13) (hlen : i < ws.length) :
    (((dom.sentence_irr s).getD i ' ' = '*') →
        |(rewardSkep dom rate g s ws).getD i 0 - ws.getD i 0|
          = |(rewardRel dom rate g s ws).getD i 0 - ws.getD i 0| / 2) ∧
    (((dom.sentence_irr s).getD i ' ' ≠ '*') →
        (rewardSkep dom rate g s ws).getD i 0 = (rewardRel dom rate g s ws).getD i 0) := by
  unfold rewardSkep rewardRel
  rw [updateFirst13_getD _ _ _ _ hlen, updateFirst13_getD _ _ _ _ hlen,
    if_pos h13, if_pos h13]
  constructor
  · intro hmark
    have hne : (dom.sentence_irr s).getD i ' ' ≠ '~' := by rw [hmark]; decide
    rw [if_neg hne, if_neg hne, if_pos hmark]
    unfold boundedUpdate
    split_ifs
    · rw [show (ws.getD i 0 - rate / 2 * ws.getD i 0) - ws.getD i 0
            = ((ws.getD i 0 - rate * ws.getD i 0) - ws.getD i 0) / 2 from by ring,
        abs_div, abs_two]
    · rw [show (ws.getD i 0 + rate / 2 * (1 - ws.getD i 0)) - ws.getD i 0
            = ((ws.getD i 0 + rate * (1 - ws.getD i 0)) - ws.getD i 0) / 2 from by ring,
        abs_div, abs_two]
    · simp
  · intro hmark
    by_cases hirr : (dom.sentence_irr s).getD i ' ' = '~'
    · rw [if_pos hirr, if_pos hirr]
    · rw [if_neg hirr, if_neg hirr, if_neg hmark]

/-- Closed instance of `skeptical_half_delta` at the ambiguous-marked
parameter 1. -/
theorem skeptical_half_delta_witness :
    |(rewardSkep domAnnot (1/2) 5 0 [(1:ℚ)/2, 1/2]).getD 1 0 - ([(1:ℚ)/2, 1/2]).getD 1 0|
      = |(rewardRel domAnnot (1/2) 5 0 [(1:ℚ)/2, 1/2]).getD 1 0 - ([(1:ℚ)/2, 1/2]).getD 1 0| / 2 :=
  (skeptical_half_delta domAnnot (1/2) 5 0 [(1:ℚ)/2, 1/2] 1 (by norm_num) (by simp)).1
    (by decide)

/-- C1 (code bug): the weight 0.01 lies within the threshold 0.02 of the
boundary 0, so the documented semantics (and the method's own docstring)
declare the learner converged — but `converged` returns `false`, because its
loop condition `not (1 - w < threshold) or (w < threshold)` rejects every
weight near 0. -/
theorem converged_rejects_weight_near_zero :
    convergedSpec [1/100] (1/50) ∧ converged [1/100] (1/50) = false := by
  constructor
  · intro w hw
    rw [List.mem_singleton] at hw
    subst hw
    left
    norm_num
  · norm_num [converged]

theorem get_param_value_eq_testBit (pos g : ℕ) :
    get_param_value pos g = if g.testBit pos then 1 else 0 := by
  unfold get_param_value
  rw [Nat.testBit_to_div_mod]
  rcases Nat.mod_two_eq_zero_or_one (g / 2 ^ pos) with h | h <;> simp [h]

theorem samplePassAux_testBit_untouched (u : ℕ → ℚ) :
    ∀ (ws : List ℚ) (k g m : ℕ), m < k → k + ws.length ≤ 13 →
      (samplePassAux u k g ws).testBit (12 - m) = g.testBit (12 - m) := by
  intro ws
  induction ws with
  | nil => intro k g m _ _; rfl
  | cons w ws ih =>
    intro k g m hmk hlen
    have hk : k ≤ 12 := by simp only [List.length_cons] at hlen; omega
    show (samplePassAux u (k + 1) (if u k < w then toggled (12 - k) g else g) ws).testBit
        (12 - m) = g.testBit (12 - m)
    rw [ih (k + 1) _ m (Nat.lt_succ_of_lt hmk)
      (by simp only [List.length_cons] at hlen; omega)]
    by_cases hu : u k < w
    · rw [if_pos hu]
      unfold toggled
      rw [Nat.testBit_xor, Nat.testBit_two_pow_of_ne (by omega : 12 - k ≠ 12 - m),
        Bool.xor_false]
    · rw [if_neg hu]

theorem samplePassAux_testBit (u : ℕ → ℚ) :
    ∀ (ws : List ℚ) (k g j : ℕ), j < ws.length → k + ws.length ≤ 13 →
      (samplePassAux u k g ws).testBit (12 - (k + j))
        = ((g.testBit (12 - (k + j))).xor (decide (u (k + j) < ws.getD j 0))) := by
  intro ws
  induction ws with
  | nil => intro k g j hj _; exact absurd hj (by simp)
  | cons w ws ih =>
    intro k g j hj hlen
    have hlen' : (k + 1) + ws.length ≤ 13 := by
      simp only [List.length_cons] at hlen; omega
    match j with
    | 0 =>
      show (samplePassAux u (k + 1) (if u k < w then toggled (12 - k) g else g) ws).testBit
          (12 - k) = ((g.testBit (12 - k)).xor (decide (u k < w)))
      rw [samplePassAux_testBit_untouched u ws (k + 1) _ k (Nat.lt_succ_self k) hlen']
      by_cases hu : u k < w
      · rw [if_pos hu]
        unfold toggled
        rw [Nat.testBit_xor, @Nat.testBit_two_pow_self (12 - k), decide_eq_true hu]
      · rw [if_neg hu, decide_eq_false hu, Bool.xor_false]
    | j + 1 =>
      have hj' : j < ws.length := by simp only [List.length_cons] at hj; omega
      have hk12 : k + (j + 1) ≤ 12 := by simp only [List.length_cons] at hlen; omega
      show (samplePassAux u (k + 1) (if u k < w then toggled (12 - k) g else g) ws).testBit
          (12 - (k + (j + 1))) = _
      have e1 : k + (j + 1) = (k + 1) + j := by omega
      rw [e1, ih (k + 1) _ j hj' hlen', List.getD_cons_succ]
      by_cases hu : u k < w
      · rw [if_pos hu]
        unfold toggled
        rw [Nat.testBit_xor,
          Nat.testBit_two_pow_of_ne (by omega : 12 - k ≠ 12 - (k + 1 + j)),
          Bool.xor_false]
      · rw [if_neg hu]

theorem samplePass_bit (u : ℕ → ℚ) (ws : List ℚ) (i : ℕ)
    (hi : i < ws.length) (hlen : ws.length ≤ 13) :
    get_param_value (12 - i) (samplePass u ws)
      = if u i < ws.getD i 0 then 1 else 0 := by
  unfold samplePass
  rw [get_param_value_eq_testBit]
  have h := samplePassAux_testBit u ws 0 0 i hi (by omega)
  rw [Nat.zero_add] at h
  rw [h, Nat.zero_testBit, Bool.false_xor]
  by_cases hu : u i < ws.getD i 0 <;> simp [hu]

/-- C3 counterexample: in a 3-parameter domain (P = 3) the sampler places
the successful coin flip of parameter 0 on the hard-coded bit 12, producing
grammar 4096; bit P−1−0 = 2 of the candidate stays 0. -/
theorem sampler_mapping_fails_for_three_params :
    samplePass (fun _ => (1:ℚ)/2) [1, 0, 0] = 4096
    ∧ get_param_value 2 (samplePass (fun _ => (1:ℚ)/2) [1, 0, 0]) = 0
    ∧ get_param_value 12 (samplePass (fun _ => (1:ℚ)/2) [1, 0, 0]) = 1 := by
  have h : samplePass (fun _ => (1:ℚ)/2) [1, 0, 0] = 4096 := by
    norm_num [samplePass, samplePassAux, toggled]
  refine ⟨h, ?_, ?_⟩ <;> rw [h] <;> rfl

/-- C3 amended: the hard-coded mapping agrees with the big-endian
`P−1−i` contract exactly in the 13-parameter case: with 13 weights the
sampler places parameter `i`'s coin-flip outcome at bit `P−1−i = 12−i` of
the candidate grammar, and the reward loop reads parameter `i`'s hypothesis
bit from the same position `12−i`. -/
theorem sampler_and_reward_bit_mapping_for_P13 (u : ℕ → ℚ) (ws : List ℚ) (rate : ℚ)
    (g i : ℕ) (hi : i < 13) (hlen : ws.length = 13) :
    get_param_value (ws.length - 1 - i) (samplePass u ws)
      = (if u i < ws.getD i 0 then 1 else 0)
    ∧ (rewardRO rate g ws).getD i 0
      = boundedUpdate rate (get_param_value (12 - i) g) (ws.getD i 0) := by
  have h12 : ws.length - 1 - i = 12 - i := by omega
  constructor
  · rw [h12]
    exact samplePass_bit u ws i (by omega) (by omega)
  · unfold rewardRO
    rw [updateFirst13_getD _ _ _ _ (by omega), if_pos hi]

/-- Closed instance of `sampler_and_reward_bit_mapping_for_P13` with 13
weights of 0.5, a draw of 0 for every flip, and hypothesis grammar 5. -/
theorem sampler_and_reward_bit_mapping_witness :
    get_param_value ((List.replicate 13 ((1:ℚ)/2)).length - 1 - 0)
        (samplePass (fun _ => (0:ℚ)) (List.replicate 13 ((1:ℚ)/2)))
      = (if (0:ℚ) < (List.replicate 13 ((1:ℚ)/2)).getD 0 0 then 1 else 0)
    ∧ (rewardRO (1/2) 5 (List.replicate 13 ((1:ℚ)/2))).getD 0 0
      = boundedUpdate (1/2) (get_param_value (12 - 0) 5)
          ((List.replicate 13 ((1:ℚ)/2)).getD 0 0) :=
  sampler_and_reward_bit_mapping_for_P13 (fun _ => (0:ℚ)) (List.replicate 13 ((1:ℚ)/2))
    (1/2) 5 0 (by norm_num) (by simp)

theorem get_param_value_complement (g p : ℕ) (hp : p < 13) :
    get_param_value p (g ^^^ (2 ^ 13 - 1)) = 1 - get_param_value p g := by
  rw [get_param_value_eq_testBit, get_param_value_eq_testBit, Nat.testBit_xor,
    Nat.testBit_two_pow_sub_one]
  rw [decide_eq_true hp, Bool.xor_true]
  cases g.testBit p <;> rfl

/-- C4: `PunishOnlyLearner.punish` on hypothesis `h` performs exactly the
unconditional reward on the bitwise complement `h ^^^ (2^P − 1)` of `h`,
`PunishOnlyLearner.reward` leaves the weights unchanged, and — for the
13-parameter case — the punished weight at index `i` follows the bounded
proportional update driven by the complemented hypothesis bit. -/
theorem punish_only_is_inverted_reward (dom : DomainM) (rate : ℚ) (g s : ℕ)
    (ws : List ℚ) :
    strategyPunish .punishOnly dom rate g s ws
      = rewardRO rate (g ^^^ (2 ^ dom.num_params - 1)) ws
    ∧ strategyReward .punishOnly dom rate g s ws = ws
    ∧ (dom.num_params = 13 → ∀ i, i < 13 → i < ws.length →
        (strategyPunish .punishOnly dom rate g s ws).getD i 0
          = boundedUpdate rate (1 - get_param_value (12 - i) g) (ws.getD i 0)) := by
  refine ⟨rfl, rfl, ?_⟩
  intro hP i h13 hlen
  show (rewardRO rate (g ^^^ (2 ^ dom.num_params - 1)) ws).getD i 0 = _
  unfold rewardRO
  rw [updateFirst13_getD _ _ _ _ hlen, if_pos h13, hP,
    get_param_value_complement g (12 - i) (by omega)]

/-- Closed instance of `punish_only_is_inverted_reward` on the concrete
13-parameter domain, hypothesis grammar 5, weight vector `[1/2]`. -/
theorem punish_only_is_inverted_reward_witness :
    strategyPunish .punishOnly domNoParse (1/2) 5 0 [(1:ℚ)/2]
      = rewardRO (1/2) (5 ^^^ (2 ^ domNoParse.num_params - 1)) [(1:ℚ)/2]
    ∧ strategyReward .punishOnly domNoParse (1/2) 5 0 [(1:ℚ)/2] = [(1:ℚ)/2]
    ∧ (strategyPunish .punishOnly domNoParse (1/2) 5 0 [(1:ℚ)/2]).getD 0 0
      = boundedUpdate (1/2) (1 - get_param_value (12 - 0) 5) (([(1:ℚ)/2]).getD 0 0) :=
  ⟨(punish_only_is_inverted_reward domNoParse (1/2) 5 0 [(1:ℚ)/2]).1,
   (punish_only_is_inverted_reward domNoParse (1/2) 5 0 [(1:ℚ)/2]).2.1,
   (punish_only_is_inverted_reward domNoParse (1/2) 5 0 [(1:ℚ)/2]).2.2 rfl 0
     (by norm_num) (by simp)⟩

theorem plgAux_eq_plgVal (total : ℕ) :
    ∀ (vs : List ℕ) (bit g : ℕ), plgAux total bit vs g = g + plgVal total bit vs
  | [], _, g => by simp [plgAux, plgVal]
  | v :: vs, bit, g => by
    show plgAux total (bit + 1) vs (g + v * 2 ^ (total - bit - 1))
        = g + (v * 2 ^ (total - bit - 1) + plgVal total (bit + 1) vs)
    rw [plgAux_eq_plgVal total vs (bit + 1) _, Nat.add_assoc]

theorem plgVal_lt (total : ℕ) :
    ∀ (vs : List ℕ) (bit : ℕ), (∀ v ∈ vs, v ≤ 1) → bit + vs.length ≤ total →
      plgVal total bit vs < 2 ^ (total - bit)
  | [], bit, _, _ => by simp [plgVal]
  | v :: vs, bit, hb, hlen => by
    show v * 2 ^ (total - bit - 1) + plgVal total (bit + 1) vs < 2 ^ (total - bit)
    have hlen' : (bit + 1) + vs.length ≤ total := by
      simp only [List.length_cons] at hlen; omega
    have hv : v ≤ 1 := hb v (List.mem_cons_self v vs)
    have ih := plgVal_lt total vs (bit + 1) (fun y hy => hb y (List.mem_cons_of_mem v hy))
      hlen'
    have he : total - (bit + 1) = total - bit - 1 := by omega
    rw [he] at ih
    have hsum : total - bit = (total - bit - 1) + 1 := by omega
    calc v * 2 ^ (total - bit - 1) + plgVal total (bit + 1) vs
        < (v + 1) * 2 ^ (total - bit - 1) := by
          have := Nat.mul_le_mul_right (2 ^ (total - bit - 1)) (Nat.le_refl v)
          nlinarith [ih]
      _ ≤ 2 * 2 ^ (total - bit - 1) := Nat.mul_le_mul_right _ (by omega)
      _ = 2 ^ (total - bit) := by
          rw [hsum, Nat.pow_succ]; exact Nat.mul_comm 2 (2 ^ (total - bit - 1))

theorem plgVal_extract (total : ℕ) :
    ∀ (vs : List ℕ) (bit j : ℕ), (∀ v ∈ vs, v ≤ 1) → bit + vs.length ≤ total →
      j < vs.length →
      plgVal total bit vs / 2 ^ (total - (bit + j) - 1) % 2 = vs.getD j 0
  | [], _, j, _, _, hj => absurd hj (by simp)
  | v :: vs, bit, 0, hb, hlen, _ => by
    show (v * 2 ^ (total - bit - 1) + plgVal total (bit + 1) vs)
        / 2 ^ (total - (bit + 0) - 1) % 2 = v
    have hlen' : (bit + 1) + vs.length ≤ total := by
      simp only [List.length_cons] at hlen; omega
    have hv : v ≤ 1 := hb v (List.mem_cons_self v vs)
    have ih := plgVal_lt total vs (bit + 1) (fun y hy => hb y (List.mem_cons_of_mem v hy))
      hlen'
    have he : total - (bit + 1) = total - bit - 1 := by omega
    rw [he] at ih
    have he0 : total - (bit + 0) - 1 = total - bit - 1 := by omega
    rw [he0, Nat.add_comm (v * 2 ^ (total - bit - 1)) _,
      Nat.add_mul_div_right _ _ (Nat.pos_pow_of_pos _ (by norm_num)),
      Nat.div_eq_of_lt ih, Nat.zero_add, Nat.mod_eq_of_lt (by omega)]
  | v :: vs, bit, j + 1, hb, hlen, hj => by
    show (v * 2 ^ (total - bit - 1) + plgVal total (bit + 1) vs)
        / 2 ^ (total - (bit + (j + 1)) - 1) % 2 = vs.getD j 0
    have hj' : j < vs.length := by simp only [List.length_cons] at hj; omega
    have hlen' : (bit + 1) + vs.length ≤ total := by
      simp only [List.length_cons] at hlen; omega
    have hbig : total - bit - 1 = (total - (bit + (j + 1)) - 1) + (j + 1) := by omega
    have hpow : v * 2 ^ (total - bit - 1)
        = (v * 2 ^ j * 2) * 2 ^ (total - (bit + (j + 1)) - 1) := by
      rw [hbig, Nat.pow_add]
      ring
    rw [hpow, Nat.add_comm,
      Nat.add_mul_div_right _ _ (Nat.pos_pow_of_pos _ (by norm_num)),
      Nat.add_mul_mod_self_right]
    have he : total - (bit + (j + 1)) - 1 = total - ((bit + 1) + j) - 1 := by omega
    rw [he]
    exact plgVal_extract total vs (bit + 1) j
      (fun y hy => hb y (List.mem_cons_of_mem v hy)) hlen' hj'

/-- C9: encoding a list of parameter bits and then reading the bit at
position `P−1−i` recovers entry `i`, for every index — the codec is the
big-endian bitstring value with parameter 0 most significant. -/
theorem encode_extract_roundtrip (ps : List ℕ) (i : ℕ)
    (hbits : ∀ v ∈ ps, v = 0 ∨ v = 1) (hi : i < ps.length) :
    get_param_value (ps.length - 1 - i) (param_list_to_grammar ps) = ps.getD i 0 := by
  unfold param_list_to_grammar get_param_value
  rw [plgAux_eq_plgVal _ _ _ _, Nat.zero_add]
  have he : ps.length - 1 - i = ps.length - (0 + i) - 1 := by omega
  rw [he]
  exact plgVal_extract ps.length ps 0 i
    (fun v hv => by rcases hbits v hv with h | h <;> omega) (by omega) hi

/-- Closed instance of `encode_extract_roundtrip` on the 3-bit list
`[1, 0, 1]` at index 0. -/
theorem encode_extract_roundtrip_witness :
    get_param_value (([1, 0, 1] : List ℕ).length - 1 - 0) (param_list_to_grammar [1, 0, 1])
      = ([1, 0, 1] : List ℕ).getD 0 0 :=
  encode_extract_roundtrip [1, 0, 1] 0 (by decide) (by norm_num)

theorem learnAux_invariant {σ : Type} (consume : ℕ → σ → Option σ) (conv : σ → Bool)
    (cap : ℕ) :
    ∀ (fuel c : ℕ) (s : σ) (r n : ℕ) (s₂ : σ), c + fuel = cap + 1 →
      learnAux consume conv cap fuel c c s = some (r, n, s₂) →
      n ≤ cap + 1 ∧ ((r = n ∧ conv s₂ = true) ∨ (n = r + 1 ∧ r = cap)) := by
  intro fuel
  induction fuel with
  | zero =>
    intro c s r n s₂ _ h
    exact absurd h (by simp [learnAux])
  | succ fuel ih =>
    intro c s r n s₂ hc h
    have hcap : c ≤ cap := by omega
    rw [learnAux] at h
    cases hconv : conv s with
    | true =>
      rw [hconv, if_pos rfl] at h
      simp only [Option.some.injEq, Prod.mk.injEq] at h
      obtain ⟨h1, h2, h3⟩ := h
      subst h1; subst h2; subst h3
      exact ⟨by omega, Or.inl ⟨rfl, hconv⟩⟩
    | false =>
      rw [hconv] at h
      simp only [Bool.false_eq_true, if_false] at h
      cases hcs : consume c s with
      | none => rw [hcs] at h; exact absurd h (by simp)
      | some s₁ =>
        rw [hcs] at h
        dsimp only at h
        by_cases hc2 : cap ≤ c
        · rw [if_pos hc2] at h
          simp only [Option.some.injEq, Prod.mk.injEq] at h
          obtain ⟨h1, h2, _⟩ := h
          exact ⟨by omega, Or.inr ⟨by omega, by omega⟩⟩
        · rw [if_neg hc2] at h
          exact ih (c + 1) s₁ r n s₂ (by omega) h

/-- C5 amended: the loop of `learn_language` stops on the first convergence
check that succeeds or once the iteration cap is exhausted; the number of
sentences consumed is at most `cap + 1`; and the returned counter equals the
number of sentences consumed when the stop came from the convergence check,
but falls short of it by exactly one (returning `cap` against `cap + 1`
consumed) when the cap triggered the stop. -/
theorem learn_language_spec {σ : Type} (consume : ℕ → σ → Option σ)
    (convergedM : σ → ℚ → Bool) (cap : ℕ) (s : σ) (r n : ℕ) (s₂ : σ)
    (h : learn_language consume convergedM cap s = some (r, n, s₂)) :
    n ≤ cap + 1
    ∧ ((r = n ∧ convergedM s₂ (1/50) = true) ∨ (n = r + 1 ∧ r = cap)) :=
  learnAux_invariant consume (fun st => convergedM st (1/50)) cap (cap + 1) 0 s r n s₂
    (by omega) h

/-- C5 counterexample: a reward-only learner in the no-parse domain with the
iteration cap 0 consumes one sentence, yet `learn_language` returns 0 —
the return value is not the number of sentences consumed. -/
theorem learn_language_return_undercounts :
    learn_language
        (fun _ ws => consumeStep .rewardOnly domNoParse (1/2000) (fun _ _ => 1) 1 0 ws)
        converged 0 (List.replicate 13 ((1:ℚ)/2))
      = some (0, 1, List.replicate 13 ((1:ℚ)/2))
    ∧ (0 : ℕ) ≠ 1 := by
  refine ⟨?_, by norm_num⟩
  have hconv : converged (List.replicate 13 ((1:ℚ)/2)) (1/50) = false := by
    norm_num [converged, List.replicate]
  have hcons : consumeStep .rewardOnly domNoParse (1/2000) (fun _ _ => (1:ℚ)) 1 0
      (List.replicate 13 ((1:ℚ)/2)) = some (List.replicate 13 ((1:ℚ)/2)) := by
    norm_num [consumeStep, choose_grammar, chooseGrammarAux, domNoParse, samplePass,
      samplePassAux, List.replicate, strategyPunish]
  rw [learn_language, learnAux, hconv]
  simp only [Bool.false_eq_true, if_false]
  rw [hcons]
  rfl

/-- Closed instance of `learn_language_spec`: a learner that starts
converged at threshold 1/50 stops with counter 0 and 0 sentences consumed. -/
theorem learn_language_spec_witness :
    learn_language (fun _ ws => some ws) converged 5 [(99:ℚ)/100]
      = some (0, 0, [(99:ℚ)/100])
    ∧ (0 ≤ 5 + 1
        ∧ ((0 = 0 ∧ converged [(99:ℚ)/100] (1/50) = true) ∨ (0 = 0 + 1 ∧ 0 = 5))) := by
  have hconv : converged [(99:ℚ)/100] (1/50) = true := by norm_num [converged]
  have h : learn_language (fun _ ws => some ws) converged 5 [(99:ℚ)/100]
      = some (0, 0, [(99:ℚ)/100]) := by
    rw [learn_language, learnAux, hconv]
    rfl
  exact ⟨h, learn_language_spec (fun _ ws => some ws) converged 5 [(99:ℚ)/100] 0 0
    [(99:ℚ)/100] h⟩

/-- C10: the simulation harness tests convergence only at the hard-coded
threshold `0.02 = 1/50`: `learn_language` exposes no threshold parameter
and its behaviour depends on the learner's `converged` method only through
that method's values at `1/50`. -/
theorem harness_threshold_fixed {σ : Type} (consume : ℕ → σ → Option σ)
    (c₁ c₂ : σ → ℚ → Bool) (cap : ℕ) (s : σ)
    (h : ∀ st, c₁ st (1/50) = c₂ st (1/50)) :
    learn_language consume c₁ cap s = learn_language consume c₂ cap s := by
  unfold learn_language
  rw [show (fun st => c₁ st (1/50)) = fun st => c₂ st (1/50) from funext h]

/-- Closed instance of `harness_threshold_fixed`: the code's `converged`
method against a method constant in the threshold that agrees with it at
`1/50`. -/
theorem harness_threshold_fixed_witness :
    learn_language (fun _ ws => some ws) converged 0 [(1:ℚ)/2]
      = learn_language (fun _ ws => some ws) (fun ws _ => converged ws (1/50)) 0 [(1:ℚ)/2] :=
  harness_threshold_fixed (fun _ ws => some ws) converged
    (fun ws _ => converged ws (1/50)) 0 [(1:ℚ)/2] (fun _ => rfl)

/-- C6 counterexample: a complete trial in the no-parse domain ends with
all 13 weights still at 0.5; the row's grammar field holds 8191 — the fresh
`choose_grammar()` sample drawn with the final oracle — while `best_guess`
of the same final weight vector is 0 (each 0.5 rounds to the even
neighbour 0).  The stored grammar is the sampler's output, not the
best-guess encoding. -/
theorem trial_grammar_field_not_best_guess :
    runTrial .rewardOnly domNoParse 611 0 0 (fun _ => 0) (fun _ _ _ => 1) (fun _ _ => 0) 1
      = some ⟨611, 0, 0, 8191, List.replicate 13 ((1:ℚ)/2)⟩
    ∧ best_guess (List.replicate 13 ((1:ℚ)/2)) = 0
    ∧ (8191 : ℕ) ≠ 0 := by
  refine ⟨?_, ?_, by norm_num⟩
  · have hconv : converged (List.replicate 13 ((1:ℚ)/2)) (1/50) = false := by
      norm_num [converged, List.replicate]
    have hcons : consumeStep .rewardOnly domNoParse (1/2000) (fun _ _ => (1:ℚ)) 1 0
        (List.replicate 13 ((1:ℚ)/2)) = some (List.replicate 13 ((1:ℚ)/2)) := by
      norm_num [consumeStep, choose_grammar, chooseGrammarAux, domNoParse, samplePass,
        samplePassAux, List.replicate, strategyPunish]
    have hrun : learn_language
        (fun t ws => consumeStep .rewardOnly domNoParse (1/2000) ((fun _ _ _ => (1:ℚ)) t) 1
          ((fun _ => 0) t) ws)
        converged 0 (List.replicate domNoParse.num_params ((1:ℚ)/2))
        = some (0, 1, List.replicate 13 ((1:ℚ)/2)) := by
      show learn_language
          (fun _ ws => consumeStep .rewardOnly domNoParse (1/2000) (fun _ _ => (1:ℚ)) 1 0 ws)
          converged 0 (List.replicate 13 ((1:ℚ)/2)) = _
      rw [learn_language, learnAux, hconv]
      simp only [Bool.false_eq_true, if_false]
      rw [hcons]
      rfl
    have hfinal : choose_grammar domNoParse.legal (fun _ _ => (0:ℚ))
        (List.replicate 13 ((1:ℚ)/2)) 1 = some 8191 := by
      have : samplePass (fun _ => (0:ℚ)) (List.replicate 13 ((1:ℚ)/2)) = 8191 := by
        norm_num [samplePass, samplePassAux, toggled, List.replicate]
        decide
      norm_num [choose_grammar, chooseGrammarAux, domNoParse, this]
    rw [runTrial, hrun]
    dsimp only
    rw [hfinal]
  · have h5 : pyRound ((1:ℚ)/2) = 0 := by norm_num [pyRound]
    norm_num [best_guess, List.replicate, h5, param_list_to_grammar, plgAux]

/-- C6 amended: whenever the `run_vl_on_languages` trial body yields a
record, its grammar field is the output of the final fresh
`learner.choose_grammar()` call — the hypothesis sampler run on the final
weight vector with the final random draws — rather than `best_guess()`. -/
theorem trial_grammar_field_is_sampler (kind : StrategyKind) (dom : DomainM)
    (grammarId trialNum numSentences : ℕ) (sentences : ℕ → ℕ)
    (uSteps : ℕ → ℕ → ℕ → ℚ) (uFinal : ℕ → ℕ → ℚ) (fuel : ℕ) (res : TrialResult)
    (h : runTrial kind dom grammarId trialNum numSentences sentences uSteps uFinal fuel
      = some res) :
    choose_grammar dom.legal uFinal res.finalWeights fuel = some res.grammarField := by
  rw [runTrial] at h
  split at h
  · exact absurd h (by simp)
  · rename_i counter rest wsF heq
    split at h
    · exact absurd h (by simp)
    · rename_i g hg
      simp only [Option.some.injEq] at h
      subst h
      exact hg

/-- Closed instance of `trial_grammar_field_is_sampler`: a trial whose
final draws are all 3/4 stores the sampled grammar 0 in the row. -/
theorem trial_grammar_field_is_sampler_witness :
    choose_grammar domNoParse.legal (fun _ _ => (3:ℚ)/4)
        (List.replicate 13 ((1:ℚ)/2)) 1 = some 0 := by
  have hconv : converged (List.replicate 13 ((1:ℚ)/2)) (1/50) = false := by
    norm_num [converged, List.replicate]
  have hcons : consumeStep .rewardOnly domNoParse (1/2000) (fun _ _ => (1:ℚ)) 1 0
      (List.replicate 13 ((1:ℚ)/2)) = some (List.replicate 13 ((1:ℚ)/2)) := by
    norm_num [consumeStep, choose_grammar, chooseGrammarAux, domNoParse, samplePass,
      samplePassAux, List.replicate, strategyPunish]
  have h : runTrial .rewardOnly domNoParse 611 0 0 (fun _ => 0) (fun _ _ _ => 1)
      (fun _ _ => (3:ℚ)/4) 1
      = some ⟨611, 0, 0, 0, List.replicate 13 ((1:ℚ)/2)⟩ := by
    have hrun : learn_language
        (fun t ws => consumeStep .rewardOnly domNoParse (1/2000) ((fun _ _ _ => (1:ℚ)) t) 1
          ((fun _ => 0) t) ws)
        converged 0 (List.replicate domNoParse.num_params ((1:ℚ)/2))
        = some (0, 1, List.replicate 13 ((1:ℚ)/2)) := by
      show learn_language
          (fun _ ws => consumeStep .rewardOnly domNoParse (1/2000) (fun _ _ => (1:ℚ)) 1 0 ws)
          converged 0 (List.replicate 13 ((1:ℚ)/2)) = _
      rw [learn_language, learnAux, hconv]
      simp only [Bool.false_eq_true, if_false]
      rw [hcons]
      rfl
    have hfinal : choose_grammar domNoParse.legal (fun _ _ => (3:ℚ)/4)
        (List.replicate 13 ((1:ℚ)/2)) 1 = some 0 := by
      have : samplePass (fun _ => (3:ℚ)/4) (List.replicate 13 ((1:ℚ)/2)) = 0 := by
        norm_num [samplePass, samplePassAux, toggled, List.replicate]
      norm_num [choose_grammar, chooseGrammarAux, domNoParse, this]
    rw [runTrial, hrun]
    dsimp only
    rw [hfinal]
  exact trial_grammar_field_is_sampler .rewardOnly domNoParse 611 0 0 (fun _ => 0)
    (fun _ _ _ => 1) (fun _ _ => (3:ℚ)/4) 1 ⟨611, 0, 0, 0, List.replicate 13 ((1:ℚ)/2)⟩ h

end Variational
